import Mathlib

/-!
Verification development for the package-dependency analyzer in `src/main.py`.
The Python functions are shallowly embedded as executable Lean definitions:
strings are `String`, Python lists are `List`, Python dicts are association
lists (`List (String × List String)`) with first-match lookup and
overwrite-in-place insertion, Python sets of strings are duplicate-free
`List String` accumulators, and fallible code returns `Except String`.
-/

namespace Config2

/-! ### Character and string helpers modelling Python string operations -/

/-- Drop leading regex-`\s` whitespace, as `\s*` does at the start of a match. -/
def dropWS (cs : List Char) : List Char := cs.dropWhile Char.isWhitespace

/-- Python `str.strip()`: remove leading and trailing whitespace. -/
def pyStrip (s : String) : String :=
  String.mk (((s.toList.dropWhile Char.isWhitespace).reverse.dropWhile
    Char.isWhitespace).reverse)

/-- Python `str.lower()` on the character list (ASCII, as used by the regexes). -/
def pyLowerList (cs : List Char) : List Char := cs.map Char.toLower

/-- `listStartsWith l p` : `l` begins with the literal character sequence `p`. -/
def listStartsWith : List Char → List Char → Bool
  | _, [] => true
  | [], _ :: _ => false
  | a :: as, b :: bs => a == b && listStartsWith as bs

/-- `listHasSub needle hay` : `needle` occurs contiguously inside `hay`. -/
def listHasSub (needle : List Char) : List Char → Bool
  | [] => needle.isEmpty
  | c :: rest => listStartsWith (c :: rest) needle || listHasSub needle rest

/-- Python `needle in hay` on strings (contiguous substring test). -/
def pyIn (needle hay : String) : Bool := listHasSub needle.toList hay.toList

/-- Consume an exact literal from the front, returning the remainder. -/
def dropLit : List Char → List Char → Option (List Char)
  | cs, [] => some cs
  | [], _ :: _ => none
  | c :: cs, l :: ls => if c == l then dropLit cs ls else none

/-- The regex character class `[A-Za-z0-9_\-]`. -/
def isWordChar (c : Char) : Bool := c.isAlphanum || c.toNat == 95 || c.toNat == 45

/-- The regex character class of a double quote (code 34) or single quote (code 39). -/
def isQuoteChar (c : Char) : Bool := c.toNat == 34 || c.toNat == 39

/-- Python `str.strip(ch)` for the single character with code `n`. -/
def stripAllChar (n : Nat) (s : String) : String :=
  String.mk (((s.toList.dropWhile (fun c => c.toNat == n)).reverse.dropWhile
    (fun c => c.toNat == n)).reverse)

/-- Python `.strip('"').strip(&apos;)` as used on dotted-table names (34 then 39). -/
def stripQuotes (s : String) : String := stripAllChar 39 (stripAllChar 34 s)

/-- Python `line.split("#", 1)[0]`: the prefix before the first `#` (code 35). -/
def stripComment (s : String) : String :=
  String.mk (s.toList.takeWhile (fun c => !(c.toNat == 35)))

/-- Whether a (stripped) string starts with `[` (code 91). -/
def strStartsBracket (s : String) : Bool :=
  match s.toList with
  | [] => false
  | c :: _ => c.toNat == 91

/-! ### `parse_toml_package_name` (src/main.py lines 62-76) -/

/-- The header test `s.startswith("[") and s.lower().startswith("[package")`. -/
def isPackageHeader (s : String) : Bool :=
  listStartsWith (pyLowerList s.toList) "[package".toList

/-- Anchored match of `^\s*name\s*=\s*["x27]([^"x27]+)["x27]` returning group 1. -/
def matchNameRe (line : String) : Option String :=
  match dropLit (dropWS line.toList) "name".toList with
  | none => none
  | some cs1 =>
    match dropWS cs1 with
    | [] => none
    | e :: cs2 =>
      if e.toNat == 61 then
        match dropWS cs2 with
        | [] => none
        | q :: cs3 =>
          if isQuoteChar q then
            let content := cs3.takeWhile (fun c => !(isQuoteChar c))
            if content.isEmpty then none
            else
              match cs3.dropWhile (fun c => !(isQuoteChar c)) with
              | [] => none
              | _ :: _ => some (String.mk content)
          else none
      else none

/-- Line loop of `parse_toml_package_name`, carrying the `in_package` flag. -/
def ptpnGo : Bool → List String → Option String
  | _, [] => none
  | inPkg, line :: rest =>
    let s := pyStrip line
    if isPackageHeader s then ptpnGo true rest
    else if inPkg then
      if strStartsBracket s then none
      else
        match matchNameRe line with
        | some n => some n
        | none => ptpnGo true rest
    else ptpnGo false rest

/-- `parse_toml_package_name(lines)` from src/main.py. -/
def parse_toml_package_name (lines : List String) : Option String :=
  ptpnGo false lines

/-! ### `parse_toml_dependencies` (src/main.py lines 78-115) -/

/-- Python `set.add` on a duplicate-free list accumulator. -/
def setAdd (deps : List String) (x : String) : List String :=
  if deps.contains x then deps else deps ++ [x]

/-- Anchored match of `^\s*\[dependencies\]\s*$` (case-insensitive). -/
def isDepSection (line : String) : Bool :=
  String.mk (pyLowerList (pyStrip line).toList) == "[dependencies]"

/-- Anchored match of `^\s*\[dependencies\.([^\]]+)\]\s*$` (case-insensitive),
returning group 1 in its original case. The bracket codes are 91 and 93. -/
def matchDepTable (line : String) : Option String :=
  let t := (pyStrip line).toList
  if listStartsWith (pyLowerList t) "[dependencies.".toList then
    let body := t.drop 14
    let content := body.takeWhile (fun c => !(c.toNat == 93))
    match body.dropWhile (fun c => !(c.toNat == 93)) with
    | [c] => if content.isEmpty then none
             else if c.toNat == 93 then some (String.mk content) else none
    | _ => none
  else none

/-- Anchored match of `^\s*([A-Za-z0-9_\-]+)\s*=` returning group 1. -/
def matchKeyVal (s : String) : Option String :=
  let cs := dropWS s.toList
  let w := cs.takeWhile isWordChar
  if w.isEmpty then none
  else
    match (cs.dropWhile isWordChar).dropWhile Char.isWhitespace with
    | [] => none
    | e :: _ => if e.toNat == 61 then some (String.mk w) else none

/-- Anchored match test for `^\s*dependencies\s*=\s*\x7b` (code 123 is the brace). -/
def matchInlineStart (line : String) : Bool :=
  match dropLit (dropWS line.toList) "dependencies".toList with
  | none => false
  | some cs1 =>
    match dropWS cs1 with
    | [] => false
    | e :: cs2 =>
      if e.toNat == 61 then
        match dropWS cs2 with
        | [] => false
        | b :: _ => b.toNat == 123
      else false

/-- The accumulation loop `while "\x7d" not in inline and j < len(lines)`:
concatenate following lines (separated by a space) until the text contains a
closing brace (code 125) or the lines run out. -/
def accumInline : String → List String → String
  | acc, [] => acc
  | acc, l :: rest =>
    if acc.toList.contains (Char.ofNat 125) then acc
    else accumInline (acc ++ " " ++ l) rest

/-- One step of `re.finditer(r'([A-Za-z0-9_\-]+)\s*=', inline)`: fuelled so the
definition is structurally recursive; the fuel starts at the list length, which
bounds the number of steps since each step strictly shortens the list. -/
def findIdentsEqAux : Nat → List Char → List String
  | 0, _ => []
  | _, [] => []
  | fuel + 1, c :: rest =>
    if isWordChar c then
      let w := rest.takeWhile isWordChar
      let rest2 := rest.dropWhile isWordChar
      match rest2.dropWhile Char.isWhitespace with
      | e :: rest4 =>
        if e.toNat == 61 then String.mk (c :: w) :: findIdentsEqAux fuel rest4
        else findIdentsEqAux fuel rest2
      | [] => []
    else findIdentsEqAux fuel rest

/-- All group-1 captures of `re.finditer(r'([A-Za-z0-9_\-]+)\s*=', text)`. -/
def findIdentsEq (cs : List Char) : List String := findIdentsEqAux cs.length cs

/-- Lines 107-114 of src/main.py: if the line opens an inline `dependencies`
table, accumulate forward and add every identifier followed by `=`. -/
def inlineCheck (deps : List String) (line : String) (rest : List String) :
    List String :=
  if matchInlineStart line then
    (findIdentsEq (accumInline line rest).toList).foldl setAdd deps
  else deps

/-- Line loop of `parse_toml_dependencies`, carrying `in_dependencies` and the
accumulated set. The lookahead used by the inline-table form is the tail of the
line list, exactly as `lines[j]` with `j > i` reads forward in the Python code. -/
def ptdGo : Bool → List String → List String → List String
  | _, deps, [] => deps
  | inDeps, deps, line :: rest =>
    if isDepSection line then ptdGo true deps rest
    else
      match matchDepTable line with
      | some raw =>
        let nm := stripQuotes (pyStrip raw)
        ptdGo false (if nm == "" then deps else setAdd deps nm) rest
      | none =>
        if inDeps then
          if strStartsBracket (pyStrip line) then ptdGo false deps rest
          else
            let s := pyStrip (stripComment line)
            if s == "" then ptdGo true deps rest
            else
              match matchKeyVal s with
              | some w => ptdGo true (setAdd deps (pyStrip w)) rest
              | none => ptdGo true (inlineCheck deps line rest) rest
        else ptdGo false (inlineCheck deps line rest) rest

/-- Boolean lexicographic comparison of character lists by code point,
as Python compares strings. -/
def listLtChars : List Char → List Char → Bool
  | [], [] => false
  | [], _ :: _ => true
  | _ :: _, [] => false
  | a :: as, b :: bs =>
    if a.toNat < b.toNat then true
    else if b.toNat < a.toNat then false
    else listLtChars as bs

/-- Boolean strict comparison of strings, by code points. -/
def strLt (a b : String) : Bool := listLtChars a.toList b.toList

/-- Boolean non-strict comparison of strings, by code points. -/
def strLe (a b : String) : Bool := !(strLt b a)

/-- `parse_toml_dependencies(lines)` from src/main.py: the accumulated set,
returned as `sorted(deps)`. -/
def parse_toml_dependencies (lines : List String) : List String :=
  List.insertionSort (fun a b : String => strLe a b = true) (ptdGo false [] lines)

example : parse_toml_dependencies
    ["[dependencies]", "serde = \"1\"", "abc = \"2\""] = ["abc", "serde"] := by
  decide

example : parse_toml_dependencies ["[dependencies.foo]"] = ["foo"] := by decide

example : parse_toml_dependencies
    ["dependencies = \x7b a = \"1\",", " b = \"2\" \x7d"]
    = ["a", "b", "dependencies"] := by decide

example : parse_toml_package_name ["[package]", "name = \"pkg-a\""]
    = some "pkg-a" := by decide

example : parse_toml_package_name ["name = \"x\"", "[package]", "[lib]"]
    = none := by decide

/-! ### Graphs as Python dicts: association lists with first-match lookup -/

/-- A dependency graph, as the Python dict from package name to dependency
list; insertion keeps one entry per key. -/
abbrev DepGraph := List (String × List String)

/-- Python `key in dict`. -/
def hasKey (g : DepGraph) (k : String) : Bool :=
  (g.find? (fun p => p.1 == k)).isSome

/-- Python `graph.get(node, [])`: total lookup defaulting to the empty list. -/
def graphGet (g : DepGraph) (k : String) : List String :=
  match g.find? (fun p => p.1 == k) with
  | some p => p.2
  | none => []

/-- Python `dict[k] = v`: overwrite in place if the key exists, else append. -/
def dictInsert (g : DepGraph) (k : String) (v : List String) : DepGraph :=
  if hasKey g k then g.map (fun p => if p.1 == k then (k, v) else p)
  else g ++ [(k, v)]

/-! ### `parse_test_graph_file` (src/main.py lines 118-134), on the file's lines -/

/-- Python `str.split()` on a character list: whitespace-separated tokens.
Fuelled by the list length, which bounds the number of steps. -/
def pyTokensAux : Nat → List Char → List String
  | 0, _ => []
  | _, [] => []
  | fuel + 1, c :: rest =>
    if c.isWhitespace then pyTokensAux fuel rest
    else
      let w := rest.takeWhile (fun x => !x.isWhitespace)
      String.mk (c :: w) :: pyTokensAux fuel (rest.dropWhile (fun x => !x.isWhitespace))

/-- Python `str.split()`. -/
def pyTokens (s : String) : List String := pyTokensAux s.toList.length s.toList

/-- Line loop of `parse_test_graph_file`: strip comments, skip blanks, require
a colon (code 58), split at the first colon, tokenize the right side. -/
def ptgGo : DepGraph → List String → Except String DepGraph
  | g, [] => Except.ok g
  | g, raw :: rest =>
    let line := pyStrip (stripComment raw)
    if line == "" then ptgGo g rest
    else if !(line.toList.contains (Char.ofNat 58)) then
      Except.error ("Bad line in test file (expected \x27A: B C\x27): " ++ raw)
    else
      let left := String.mk (line.toList.takeWhile (fun c => !(c.toNat == 58)))
      let right := String.mk ((line.toList.dropWhile (fun c => !(c.toNat == 58))).drop 1)
      let node := pyStrip left
      if node == "" then ptgGo g rest
      else ptgGo (dictInsert g node ((pyTokens (pyStrip right)).filter (fun t => t != ""))) rest

/-- `parse_test_graph_file` from src/main.py, applied to the lines of the file
(the existence check and file read are I/O and are abstracted away). -/
def parse_test_graph_file (lines : List String) : Except String DepGraph :=
  ptgGo [] lines

instance {α β : Type} [DecidableEq α] [DecidableEq β] :
    DecidableEq (Except α β) := fun a b =>
  match a, b with
  | Except.ok x, Except.ok y =>
    if h : x = y then isTrue (by rw [h]) else isFalse (by intro hc; cases hc; exact h rfl)
  | Except.error x, Except.error y =>
    if h : x = y then isTrue (by rw [h]) else isFalse (by intro hc; cases hc; exact h rfl)
  | Except.ok _, Except.error _ => isFalse (by intro hc; cases hc)
  | Except.error _, Except.ok _ => isFalse (by intro hc; cases hc)

example : parse_test_graph_file ["A: B C", "B: C", "C:"]
    = Except.ok [("A", ["B", "C"]), ("B", ["C"]), ("C", [])] := by decide

example : parse_test_graph_file ["A: B", "A: C"] = Except.ok [("A", ["C"])] := by
  decide

/-! ### `build_graph_from_repo` (src/main.py lines 137-153), on manifest lines -/

/-- The `packages` dict of `build_graph_from_repo`: manifests whose name
parses contribute `name -> parse_toml_dependencies`. -/
def packagesOf : DepGraph → List (List String) → DepGraph
  | acc, [] => acc
  | acc, m :: ms =>
    match parse_toml_package_name m with
    | some name => packagesOf (dictInsert acc name (parse_toml_dependencies m)) ms
    | none => packagesOf acc ms

/-- Inner loop of lines 149-152: add each dependency name missing from the
accumulating node map, with an empty dependency list. -/
def ensureDeps : DepGraph → List String → DepGraph
  | acc, [] => acc
  | acc, d :: ds => ensureDeps (if hasKey acc d then acc else acc ++ [(d, [])]) ds

/-- Outer loop of lines 149-152 over all package dependency lists. -/
def closeAll : DepGraph → DepGraph → DepGraph
  | acc, [] => acc
  | acc, p :: ps => closeAll (ensureDeps acc p.2) ps

/-- `build_graph_from_repo` from src/main.py, applied to the lines of each
located manifest (directory walking and file reads are I/O, abstracted away). -/
def build_graph_from_repo (manifests : List (List String)) : DepGraph :=
  closeAll (packagesOf [] manifests) (packagesOf [] manifests)

example : build_graph_from_repo
    [["[package]", "name = \"a\"", "[dependencies]", "b = \"1\""]]
    = [("a", ["b"]), ("b", [])] := by decide

/-! ### `bfs_recursive_levels` (src/main.py lines 156-182) -/

/-- The guard `filter_substr and filter_substr in s`. -/
def filteredOut (fil s : String) : Bool := (!(fil == "")) && pyIn fil s

/-- The inner neighbor loop of `recurse`: thread the visited set and the
next frontier through one node's dependency list. -/
def stepNbrs (fil : String) : List String → List String → List String →
    List String × List String
  | [], vis, nf => (vis, nf)
  | nbr :: rest, vis, nf =>
    if filteredOut fil nbr then stepNbrs fil rest vis nf
    else if vis.contains nbr then stepNbrs fil rest vis nf
    else stepNbrs fil rest (vis ++ [nbr]) (nf ++ [nbr])

/-- The outer loop of `recurse` over the current frontier. -/
def stepFrontier (g : DepGraph) (fil : String) : List String → List String →
    List String → List String × List String
  | [], vis, nf => (vis, nf)
  | node :: rest, vis, nf =>
    let p := stepNbrs fil (graphGet g node) vis nf
    stepFrontier g fil rest p.1 p.2

/-- `recurse(frontier, depth)` with `max_depth - depth` steps of fuel left:
the guard `depth >= max_depth` becomes the fuel-0 case, and a new level is
emitted only when the next frontier is non-empty. Returns the final visited
set and the levels discovered after the current frontier. -/
def bfsLoop (g : DepGraph) (fil : String) : Nat → List String → List String →
    List String × List (List String)
  | 0, _, vis => (vis, [])
  | fuel + 1, frontier, vis =>
    let p := stepFrontier g fil frontier vis []
    if p.2.isEmpty then (p.1, [])
    else
      let q := bfsLoop g fil fuel p.2 p.1
      (q.1, p.2 :: q.2)

/-- `bfs_recursive_levels(start, graph, max_depth, filter_substr)` from
src/main.py: the returned pair of the visited set (as a duplicate-free list in
discovery order) and the level sequence. -/
def bfs_recursive_levels (start : String) (g : DepGraph) (maxDepth : Nat)
    (fil : String) : List String × List (List String) :=
  if filteredOut fil start then ([], [])
  else
    let p := bfsLoop g fil maxDepth [start] [start]
    (p.1, [start] :: p.2)

example : bfs_recursive_levels "A" [("A", ["B", "C"]), ("B", ["C"]), ("C", [])] 2 ""
    = (["A", "B", "C"], [["A"], ["B", "C"]]) := by decide

example : bfs_recursive_levels "A" [("A", ["B", "C"]), ("B", ["C"]), ("C", [])] 2 "A"
    = ([], []) := by decide

/-! ### `collect_edges_within_levels` (src/main.py lines 184-193) -/

/-- The edge loop over the collected node set: for each node, an edge to every
declared neighbor that is also in the set. -/
def edgesFor (g : DepGraph) (all : List String) : List String →
    List (String × String)
  | [] => []
  | n :: rest =>
    ((graphGet g n).filter (fun d => all.contains d)).map (fun d => (n, d))
      ++ edgesFor g all rest

/-- `collect_edges_within_levels(levels, graph)` from src/main.py. The Python
`nodes_set` is the union of the levels; levels are pairwise disjoint and
duplicate-free by construction, so the flattened list is that set. -/
def collect_edges_within_levels (levels : List (List String)) (g : DepGraph) :
    List (String × String) :=
  edgesFor g levels.flatten levels.flatten

example : collect_edges_within_levels [["A"], ["B", "C"]]
    [("A", ["B", "C"]), ("B", ["C"]), ("C", [])]
    = [("A", "B"), ("A", "C"), ("B", "C")] := by decide

/-! ### Output assembly of `main` (src/main.py lines 229-236) -/

/-- Python tuple comparison for `sorted(edges)`. -/
def edgeLe (a b : String × String) : Bool :=
  strLt a.1 b.1 || (a.1 == b.1 && strLe a.2 b.2)

/-- Stable insertion of an edge into a sorted edge list. -/
def insertEdge (e : String × String) : List (String × String) →
    List (String × String)
  | [] => [e]
  | f :: fs => if edgeLe e f then e :: f :: fs else f :: insertEdge e fs

/-- `sorted(edges)`: Python sorted by the lexicographic tuple order. -/
def sortEdges : List (String × String) → List (String × String)
  | [] => []
  | e :: es => insertEdge e (sortEdges es)

/-- The edge lines printed by `main`, in sorted order. -/
def edgeLines (edges : List (String × String)) : List String :=
  (sortEdges edges).map (fun e => e.1 ++ " -> " ++ e.2)

/-- The level lines printed by `main`, only when at least one level exists. -/
def levelLines (levels : List (List String)) : List String :=
  if levels.isEmpty then []
  else levels.enum.map
    (fun p => "Level " ++ toString p.1 ++ ": " ++ String.intercalate " " p.2)

/-- Everything `main` prints to standard output after the graph is built:
edge lines first, then level lines. -/
def program_output (start : String) (g : DepGraph) (maxDepth : Nat)
    (fil : String) : List String :=
  let r := bfs_recursive_levels start g maxDepth fil
  edgeLines (collect_edges_within_levels r.2 g) ++ levelLines r.2

example : program_output "A" [("A", ["B", "C"]), ("B", ["C"]), ("C", [])] 2 ""
    = ["A -> B", "A -> C", "B -> C", "Level 0: A", "Level 1: B C"] := by decide

/-! ### Missing-start policy of `main` (src/main.py lines 219-225) -/

/-- The three values of `--mode`. -/
inductive Mode
  | clone
  | localDir
  | test
deriving DecidableEq

/-- Lines 219-225 of `main`: a start node absent from the graph is a fatal
error in test mode and is inserted with an empty dependency list otherwise. -/
def resolve_start (mode : Mode) (g : DepGraph) (start : String) :
    Except String DepGraph :=
  if hasKey g start then Except.ok g
  else
    match mode with
    | Mode.test =>
      Except.error ("Start node \x27" ++ start ++ "\x27 not found in test graph.")
    | _ => Except.ok (g ++ [(start, [])])

/-! ### `locate_package_cargo_toml`, modelled from the spec -/

/-- A located manifest: the name of its containing directory together with its
text lines. -/
structure ManifestInfo where
  dirName : String
  lines : List String
deriving DecidableEq

/-- Modelled from the spec: `locate_package_cargo_toml` belongs to an earlier
evolutionary stage of the repository and is absent from src/main.py; §4.3 of
the spec describes it. Among all located manifests, prefer one whose parsed
package name equals the target; if none matches and exactly one manifest
exists in total, use it; otherwise prefer one whose containing directory name
equals the target; otherwise fail with a "manifest not found for package"
error. -/
def locate_package_cargo_toml (target : String) (ms : List ManifestInfo) :
    Except String ManifestInfo :=
  match ms.find? (fun m => parse_toml_package_name m.lines == some target) with
  | some m => Except.ok m
  | none =>
    match ms with
    | [m] => Except.ok m
    | _ =>
      match ms.find? (fun m => m.dirName == target) with
      | some m => Except.ok m
      | none => Except.error ("manifest not found for package " ++ target)

/-! ### Filtered reachability, specifying what the breadth-first search visits -/

/-- A dependency path from `a` to `c` of the given length on which every node,
endpoints included, avoids the filter substring. -/
inductive CleanPath (g : DepGraph) (fil : String) : String → String → Nat → Prop
  | nil (a : String) : pyIn fil a = false → CleanPath g fil a a 0
  | cons (a b c : String) (k : Nat) : pyIn fil a = false → b ∈ graphGet g a →
      CleanPath g fil b c k → CleanPath g fil a c (k + 1)

/-! ### Bridging the executable comparator to the string order -/

theorem charLt_iff {a b : Char} : a.toNat < b.toNat ↔ a < b := Iff.rfl

theorem char_eq_of_toNat_eq {a b : Char} (h : a.toNat = b.toNat) : a = b :=
  Char.ext (UInt32.toNat.inj h)

theorem listLtChars_iff : ∀ as bs : List Char,
    listLtChars as bs = true ↔ List.Lex (· < ·) as bs
  | [], [] => iff_of_false (by simp [listLtChars]) (by intro h; cases h)
  | [], b :: bs => iff_of_true rfl List.Lex.nil
  | _ :: _, [] => iff_of_false (by simp [listLtChars]) (by intro h; cases h)
  | a :: as, b :: bs => by
    simp only [listLtChars]
    by_cases h1 : a.toNat < b.toNat
    · rw [if_pos h1]
      exact iff_of_true rfl (List.Lex.rel (charLt_iff.mp h1))
    · by_cases h2 : b.toNat < a.toNat
      · rw [if_neg h1, if_pos h2]
        refine iff_of_false (by simp) ?_
        intro h
        cases h with
        | cons h' => omega
        | rel h' => exact h1 (charLt_iff.mpr h')
      · rw [if_neg h1, if_neg h2]
        have hab : a = b := char_eq_of_toNat_eq (Nat.le_antisymm
          (Nat.le_of_not_lt h2) (Nat.le_of_not_lt h1))
        subst hab
        have hiff := listLtChars_iff as bs
        constructor
        · intro h
          exact List.Lex.cons (hiff.mp h)
        · intro h
          cases h with
          | cons h' => exact hiff.mpr h'
          | rel h' => exact absurd (charLt_iff.mpr h') h1

theorem strLt_iff {a b : String} : strLt a b = true ↔ a < b :=
  (listLtChars_iff a.toList b.toList).trans String.lt_iff_toList_lt.symm

theorem strLe_iff {a b : String} : strLe a b = true ↔ a ≤ b := by
  show (!(strLt b a)) = true ↔ ¬b < a
  rw [Bool.not_eq_true', ← Bool.not_eq_true (strLt b a)]
  exact not_congr strLt_iff

/-! ### The accumulated dependency set is duplicate-free -/

theorem setAdd_nodup {l : List String} {x : String} (h : l.Nodup) :
    (setAdd l x).Nodup := by
  unfold setAdd
  split
  · exact h
  · next hc =>
    rw [List.nodup_append]
    refine ⟨h, List.nodup_singleton x, ?_⟩
    intro a ha hax
    rw [List.mem_singleton] at hax
    subst hax
    exact hc (by simpa using ha)

theorem foldl_setAdd_nodup : ∀ (ws : List String) (l : List String),
    l.Nodup → (ws.foldl setAdd l).Nodup
  | [], _, h => h
  | w :: ws, l, h => foldl_setAdd_nodup ws (setAdd l w) (setAdd_nodup h)

theorem inlineCheck_nodup {deps : List String} (line : String)
    (rest : List String) (h : deps.Nodup) : (inlineCheck deps line rest).Nodup := by
  unfold inlineCheck
  split
  · exact foldl_setAdd_nodup _ _ h
  · exact h

theorem ptdGo_nodup : ∀ (lines : List String) (b : Bool) (deps : List String),
    deps.Nodup → (ptdGo b deps lines).Nodup
  | [], _, _, h => h
  | line :: rest, b, deps, h => by
    unfold ptdGo
    split
    · exact ptdGo_nodup rest true deps h
    · split
      · dsimp only
        split
        · exact ptdGo_nodup rest false deps h
        · exact ptdGo_nodup rest false _ (setAdd_nodup h)
      · split
        · split
          · exact ptdGo_nodup rest false deps h
          · dsimp only
            split
            · exact ptdGo_nodup rest true deps h
            · split
              · exact ptdGo_nodup rest true _ (setAdd_nodup h)
              · exact ptdGo_nodup rest true _ (inlineCheck_nodup _ _ h)
        · exact ptdGo_nodup rest false _ (inlineCheck_nodup _ _ h)

theorem parse_deps_nodup (lines : List String) :
    (parse_toml_dependencies lines).Nodup := by
  unfold parse_toml_dependencies
  exact (List.perm_insertionSort _ _).nodup_iff.mpr
    (ptdGo_nodup lines false [] List.nodup_nil)

theorem parse_deps_sorted_le (lines : List String) :
    List.Sorted (fun a b : String => strLe a b = true)
      (parse_toml_dependencies lines) := by
  haveI : IsTotal String (fun a b : String => strLe a b = true) :=
    ⟨fun a b => by
      rcases le_total a b with h | h
      · exact Or.inl (strLe_iff.mpr h)
      · exact Or.inr (strLe_iff.mpr h)⟩
  haveI : IsTrans String (fun a b : String => strLe a b = true) :=
    ⟨fun a b c hab hbc =>
      strLe_iff.mpr (le_trans (strLe_iff.mp hab) (strLe_iff.mp hbc))⟩
  exact List.sorted_insertionSort _ _

/-- Claim C4: for every list of manifest lines the parser result is
duplicate-free and strictly sorted in ascending order, and declaring `foo`
via both the inline-table form and the block form in the same manifest yields
`foo` exactly once. -/
theorem claim4_result_sorted_and_duplicate_free :
    (∀ lines : List String,
      List.Sorted (fun a b : String => a < b) (parse_toml_dependencies lines) ∧
      (parse_toml_dependencies lines).Nodup) ∧
    (parse_toml_dependencies
      ["dependencies = \x7b foo = \"1\" \x7d", "[dependencies]",
       "foo = \"2\""]).count "foo" = 1 := by
  constructor
  · intro lines
    have hnd := parse_deps_nodup lines
    have hle := parse_deps_sorted_le lines
    refine ⟨?_, hnd⟩
    exact (List.Pairwise.and hle hnd).imp
      (fun hab => lt_of_le_of_ne (strLe_iff.mp hab.1) hab.2)
  · decide

/-- Claim C1: a non-empty filter that occurs in the start node's name
short-circuits everything: empty visited set, empty level list, empty edge
list, and no output lines at all. -/
theorem claim1_filtered_start_short_circuits (g : DepGraph) (maxDepth : Nat)
    (start fil : String) (hfil : fil ≠ "") (hsub : pyIn fil start = true) :
    bfs_recursive_levels start g maxDepth fil = ([], []) ∧
    collect_edges_within_levels (bfs_recursive_levels start g maxDepth fil).2 g
      = [] ∧
    program_output start g maxDepth fil = [] := by
  have hfo : filteredOut fil start = true := by
    unfold filteredOut
    rw [hsub, Bool.and_true, Bool.not_eq_true']
    exact beq_eq_false_iff_ne.mpr hfil
  have hb : bfs_recursive_levels start g maxDepth fil = ([], []) := by
    simp [bfs_recursive_levels, hfo]
  refine ⟨hb, ?_, ?_⟩
  · rw [hb]
    rfl
  · unfold program_output
    rw [hb]
    rfl

theorem claim1_witness :
    bfs_recursive_levels "A" [("A", ["B"])] 3 "A" = ([], []) ∧
    collect_edges_within_levels
      (bfs_recursive_levels "A" [("A", ["B"])] 3 "A").2 [("A", ["B"])] = [] ∧
    program_output "A" [("A", ["B"])] 3 "A" = [] :=
  claim1_filtered_start_short_circuits [("A", ["B"])] 3 "A" "A"
    (by decide) (by decide)

theorem filteredOut_eq_false {fil s : String}
    (h : fil = "" ∨ pyIn fil s = false) : filteredOut fil s = false := by
  unfold filteredOut
  rcases h with h | h
  · rw [h]
    rfl
  · rw [h, Bool.and_false]

/-- Claim C2: with `max_depth = 0` and a filter that does not exclude the
start node, the traversal yields exactly the level `[s]` and the visited set
containing only `s`, and the edge collector emits exactly one self-loop
`(s, s)` per occurrence of `s` in its own dependency list and nothing else. -/
theorem claim2_depth_zero_single_level (g : DepGraph) (s fil : String)
    (h : fil = "" ∨ pyIn fil s = false) :
    bfs_recursive_levels s g 0 fil = ([s], [[s]]) ∧
    collect_edges_within_levels [[s]] g
      = ((graphGet g s).filter (fun d => d == s)).map (fun d => (s, d)) := by
  have hfo := filteredOut_eq_false h
  constructor
  · simp [bfs_recursive_levels, hfo, bfsLoop]
  · show edgesFor g [[s]].flatten [[s]].flatten = _
    have h1 : ([[s]] : List (List String)).flatten = [s] := by simp
    rw [h1]
    unfold edgesFor
    have h2 : edgesFor g [s] ([] : List String) = [] := rfl
    rw [h2, List.append_nil]
    have hc : ∀ d ∈ graphGet g s, ([s] : List String).contains d = (d == s) := by
      intro d _
      rw [List.contains_cons, List.contains_nil, Bool.or_false]
    rw [List.filter_congr hc]

theorem claim2_witness :
    bfs_recursive_levels "A" [("A", ["A", "B"])] 0 "" = (["A"], [["A"]]) ∧
    collect_edges_within_levels [["A"]] [("A", ["A", "B"])]
      = ((graphGet [("A", ["A", "B"])] "A").filter (fun d => d == "A")).map
          (fun d => ("A", d)) :=
  claim2_depth_zero_single_level [("A", ["A", "B"])] "A" "" (Or.inl rfl)

/-- Claim C3 counterexample: on the exact two-line inline table named by the
claim, the parser returns `["a", "b", "dependencies"]` — the key
`dependencies` itself is also captured — so the result is not the set
`{a, b}`. -/
theorem claim3_counterexample :
    parse_toml_dependencies ["dependencies = \x7b a = \"1\",", " b = \"2\" \x7d"]
      = ["a", "b", "dependencies"] ∧
    parse_toml_dependencies ["dependencies = \x7b a = \"1\",", " b = \"2\" \x7d"]
      ≠ ["a", "b"] := by decide

/-- Claim C3 amended: the split inline table yields `{a, b, dependencies}` —
`a` and `b` plus the spurious `dependencies` key — wherever the line break
falls before the closing brace. -/
theorem claim3_amended_inline_table_result :
    parse_toml_dependencies ["dependencies = \x7b a = \"1\",", " b = \"2\" \x7d"]
      = ["a", "b", "dependencies"] ∧
    parse_toml_dependencies ["dependencies = \x7b", " a = \"1\", b = \"2\" \x7d"]
      = ["a", "b", "dependencies"] ∧
    parse_toml_dependencies ["dependencies = \x7b a = \"1\", b = \"2\"", " \x7d"]
      = ["a", "b", "dependencies"] := by decide

/-- Claim C8: a dotted-table header `[dependencies.foo]` contributes exactly
the single name `foo` (quotes stripped), leaves the parser outside the
block-form section whatever the previous state was, and an empty body still
yields `foo`; body lines after the header are not treated as block-form
dependency keys. -/
theorem claim8_dotted_table_header :
    (∀ (b : Bool) (deps : List String) (rest : List String),
      ptdGo b deps ("[dependencies.foo]" :: rest)
        = ptdGo false (setAdd deps "foo") rest) ∧
    parse_toml_dependencies ["[dependencies.foo]"] = ["foo"] ∧
    parse_toml_dependencies ["[dependencies.\"foo\"]"] = ["foo"] ∧
    parse_toml_dependencies ["[dependencies.foo]", "bar = \"1\""] = ["foo"] := by
  refine ⟨?_, by decide, by decide, by decide⟩
  intro b deps rest
  rfl

/-! ### Lookup helper lemmas -/

theorem find?_key_none {g : DepGraph} {k : String} (h : hasKey g k = false) :
    g.find? (fun p => p.1 == k) = none := by
  unfold hasKey at h
  cases hf : g.find? (fun p => p.1 == k) with
  | none => rfl
  | some x =>
    rw [hf] at h
    simp at h

theorem graphGet_append_missing {g : DepGraph} {k : String}
    (h : hasKey g k = false) (v : List String) :
    graphGet (g ++ [(k, v)]) k = v := by
  unfold graphGet
  rw [List.find?_append, find?_key_none h]
  simp [List.find?]

theorem bfsLoop_leaf {g : DepGraph} {fil n : String} (h : graphGet g n = []) :
    ∀ (fuel : Nat) (vis : List String), bfsLoop g fil fuel [n] vis = (vis, [])
  | 0, vis => rfl
  | fuel + 1, vis => by
    have hsf : stepFrontier g fil [n] vis [] = (vis, []) := by
      unfold stepFrontier
      rw [h]
      rfl
    unfold bfsLoop
    dsimp only
    rw [hsf]
    rfl

/-- Claim C6 counterexample: in local mode the absent start node `A` is indeed
inserted with an empty dependency list, but with filter `A` the traversal then
yields zero levels, not the single level `[A]`, so the claim's conclusion
fails as stated. -/
theorem claim6_counterexample :
    resolve_start Mode.localDir [("B", [])] "A"
      = Except.ok [("B", []), ("A", [])] ∧
    (bfs_recursive_levels "A" [("B", []), ("A", [])] 0 "A").2 ≠ [["A"]] := by
  decide

/-- Claim C6 amended: when the start node is absent from the graph, test mode
fails with a fatal error while clone and local modes insert it with an empty
dependency list; provided the filter is empty or not a substring of the start
name, the traversal on the extended graph then yields the single level
`[start]` whatever `max_depth` is. -/
theorem claim6_amended_missing_start_policy (g : DepGraph) (start fil : String)
    (maxDepth : Nat) (h : hasKey g start = false)
    (hfil : fil = "" ∨ pyIn fil start = false) :
    resolve_start Mode.test g start
      = Except.error
          ("Start node \x27" ++ start ++ "\x27 not found in test graph.") ∧
    resolve_start Mode.clone g start = Except.ok (g ++ [(start, [])]) ∧
    resolve_start Mode.localDir g start = Except.ok (g ++ [(start, [])]) ∧
    bfs_recursive_levels start (g ++ [(start, [])]) maxDepth fil
      = ([start], [[start]]) := by
  have hfo := filteredOut_eq_false hfil
  have hb := @bfsLoop_leaf (g ++ [(start, [])]) fil start
    (graphGet_append_missing h []) maxDepth [start]
  refine ⟨?_, ?_, ?_, ?_⟩
  · simp [resolve_start, h]
  · simp [resolve_start, h]
  · simp [resolve_start, h]
  · simp [bfs_recursive_levels, hfo, hb]

theorem claim6_witness :
    resolve_start Mode.test [("B", [])] "A"
      = Except.error
          ("Start node \x27" ++ "A" ++ "\x27 not found in test graph.") ∧
    resolve_start Mode.clone [("B", [])] "A"
      = Except.ok ([("B", [])] ++ [("A", [])]) ∧
    resolve_start Mode.localDir [("B", [])] "A"
      = Except.ok ([("B", [])] ++ [("A", [])]) ∧
    bfs_recursive_levels "A" ([("B", [])] ++ [("A", [])]) 4 ""
      = (["A"], [["A"]]) :=
  claim6_amended_missing_start_policy [("B", [])] "A" "" 4
    (by decide) (Or.inl rfl)

/-- Claim C9: the single-manifest resolution rule prefers an exact parsed-name
match, then a unique manifest, then a directory-name match, and otherwise
fails with a "manifest not found for package" error. -/
theorem claim9_locate_single_manifest (target : String)
    (ms : List ManifestInfo) :
    (∀ m, ms.find? (fun x => parse_toml_package_name x.lines == some target)
        = some m → locate_package_cargo_toml target ms = Except.ok m) ∧
    (ms.find? (fun x => parse_toml_package_name x.lines == some target) = none →
      (∀ m, ms = [m] → locate_package_cargo_toml target ms = Except.ok m) ∧
      (∀ m, (∀ x, ms ≠ [x]) →
        ms.find? (fun x => x.dirName == target) = some m →
        locate_package_cargo_toml target ms = Except.ok m) ∧
      ((∀ x, ms ≠ [x]) →
        ms.find? (fun x => x.dirName == target) = none →
        locate_package_cargo_toml target ms
          = Except.error ("manifest not found for package " ++ target))) := by
  constructor
  · intro m hm
    unfold locate_package_cargo_toml
    rw [hm]
  · intro hnone
    refine ⟨?_, ?_, ?_⟩
    · intro m hms
      subst hms
      unfold locate_package_cargo_toml
      rw [hnone]
    · intro m hne hdir
      unfold locate_package_cargo_toml
      rw [hnone]
      match ms, hne with
      | [], _ =>
        rw [hdir]
      | [x], hne => exact absurd rfl (hne x)
      | a :: b :: tl, _ =>
        rw [hdir]
    · intro hne hdir
      unfold locate_package_cargo_toml
      rw [hnone]
      match ms, hne with
      | [], _ =>
        rw [hdir]
      | [x], hne => exact absurd rfl (hne x)
      | a :: b :: tl, _ =>
        rw [hdir]

theorem claim9_witness :
    locate_package_cargo_toml "t"
      [ManifestInfo.mk "d" ["[package]", "name = \"t\""]]
      = Except.ok (ManifestInfo.mk "d" ["[package]", "name = \"t\""]) :=
  (claim9_locate_single_manifest "t"
      [ManifestInfo.mk "d" ["[package]", "name = \"t\""]]).1
    (ManifestInfo.mk "d" ["[package]", "name = \"t\""]) (by decide)

/-- Claim C10: graph lookup during traversal and edge collection is total — a
node that is not a key behaves as if it had an empty dependency list, never an
error — and in a test fixture an undeclared dependency such as `B` in `A: B`
is still visited, appears in its discovery level, and is treated as a leaf. -/
theorem claim10_total_graph_lookup :
    (∀ (g : DepGraph) (n : String), hasKey g n = false → graphGet g n = []) ∧
    (∀ (g : DepGraph) (fil n : String) (vis nf : List String),
      hasKey g n = false → stepFrontier g fil [n] vis nf = (vis, nf)) ∧
    (∀ (g : DepGraph) (all : List String) (n : String),
      hasKey g n = false → edgesFor g all [n] = []) ∧
    parse_test_graph_file ["A: B"] = Except.ok [("A", ["B"])] ∧
    hasKey [("A", ["B"])] "B" = false ∧
    bfs_recursive_levels "A" [("A", ["B"])] 2 ""
      = (["A", "B"], [["A"], ["B"]]) ∧
    collect_edges_within_levels [["A"], ["B"]] [("A", ["B"])]
      = [("A", "B")] := by
  refine ⟨?_, ?_, ?_, by decide, by decide, by decide, by decide⟩
  · intro g n h
    unfold graphGet
    rw [find?_key_none h]
  · intro g fil n vis nf h
    have hg : graphGet g n = [] := by
      unfold graphGet
      rw [find?_key_none h]
    unfold stepFrontier
    rw [hg]
    rfl
  · intro g all n h
    have hg : graphGet g n = [] := by
      unfold graphGet
      rw [find?_key_none h]
    unfold edgesFor
    rw [hg]
    rfl

/-! ### The manifest graph is closed under dependency references (C7) -/

theorem hasKey_append_left {g : DepGraph} {k : String} (h : hasKey g k = true)
    (l : DepGraph) : hasKey (g ++ l) k = true := by
  unfold hasKey at h ⊢
  rw [List.find?_append]
  cases hf : g.find? (fun p => p.1 == k) with
  | none =>
    rw [hf] at h
    simp at h
  | some x => simp

theorem hasKey_append_singleton (g : DepGraph) (d : String) (v : List String) :
    hasKey (g ++ [(d, v)]) d = true := by
  unfold hasKey
  rw [List.find?_append]
  cases hf : g.find? (fun p => p.1 == d) with
  | some x => simp
  | none => simp [List.find?]

theorem mem_hasKey {g : DepGraph} {x : String × List String} (hx : x ∈ g) :
    hasKey g x.1 = true := by
  unfold hasKey
  rw [show ((g.find? (fun p => p.1 == x.1)).isSome = true)
      = (g.find? (fun p => p.1 == x.1)).isSome from rfl]
  exact List.find?_isSome.mpr ⟨x, hx, by simp⟩

theorem graphGet_entry {g : DepGraph} {n : String} (h : graphGet g n ≠ []) :
    ∃ x ∈ g, x.1 = n ∧ graphGet g n = x.2 := by
  unfold graphGet at h ⊢
  cases hf : g.find? (fun p => p.1 == n) with
  | none =>
    rw [hf] at h
    exact absurd rfl h
  | some x =>
    refine ⟨x, List.mem_of_find?_eq_some hf, ?_, rfl⟩
    have hp := List.find?_some hf
    exact eq_of_beq hp

theorem hasKey_entry {g : DepGraph} {k : String} (h : hasKey g k = true) :
    ∃ x ∈ g, x.1 = k ∧ graphGet g k = x.2 := by
  unfold hasKey at h
  unfold graphGet
  cases hf : g.find? (fun p => p.1 == k) with
  | none =>
    rw [hf] at h
    simp at h
  | some x =>
    refine ⟨x, List.mem_of_find?_eq_some hf, ?_, rfl⟩
    have hp := List.find?_some hf
    exact eq_of_beq hp

theorem ensureDeps_mem : ∀ (ds : List String) (acc : DepGraph)
    (x : String × List String), x ∈ ensureDeps acc ds → x ∈ acc ∨ x.2 = []
  | [], _, _, hx => Or.inl hx
  | d :: ds, acc, x, hx => by
    rcases ensureDeps_mem ds _ x hx with h2 | h2
    · split at h2
      · exact Or.inl h2
      · rcases List.mem_append.mp h2 with h3 | h3
        · exact Or.inl h3
        · rw [List.mem_singleton] at h3
          subst h3
          exact Or.inr rfl
    · exact Or.inr h2

theorem ensureDeps_hasKey_mono : ∀ (ds : List String) (acc : DepGraph)
    (k : String), hasKey acc k = true → hasKey (ensureDeps acc ds) k = true
  | [], _, _, h => h
  | d :: ds, acc, k, h => by
    apply ensureDeps_hasKey_mono ds
    split
    · exact h
    · exact hasKey_append_left h _

theorem ensureDeps_hasKey_self : ∀ (ds : List String) (acc : DepGraph)
    (d : String), d ∈ ds → hasKey (ensureDeps acc ds) d = true
  | [], _, d, h => absurd h (List.not_mem_nil d)
  | e :: ds, acc, d, h => by
    rcases List.mem_cons.mp h with h | h
    · subst h
      apply ensureDeps_hasKey_mono ds
      split
      · next hk => exact hk
      · exact hasKey_append_singleton acc d []
    · exact ensureDeps_hasKey_self ds _ d h

theorem closeAll_mem : ∀ (ps acc : DepGraph) (x : String × List String),
    x ∈ closeAll acc ps → x ∈ acc ∨ x.2 = []
  | [], _, _, hx => Or.inl hx
  | p :: ps, acc, x, hx => by
    rcases closeAll_mem ps _ x hx with h | h
    · exact ensureDeps_mem p.2 acc x h
    · exact Or.inr h

theorem closeAll_hasKey_mono : ∀ (ps acc : DepGraph) (k : String),
    hasKey acc k = true → hasKey (closeAll acc ps) k = true
  | [], _, _, h => h
  | p :: ps, acc, k, h =>
    closeAll_hasKey_mono ps _ k (ensureDeps_hasKey_mono p.2 acc k h)

theorem closeAll_deps_hasKey : ∀ (ps acc : DepGraph)
    (p : String × List String), p ∈ ps → ∀ d ∈ p.2,
    hasKey (closeAll acc ps) d = true
  | [], _, p, hp, _, _ => absurd hp (List.not_mem_nil p)
  | q :: ps, acc, p, hp, d, hd => by
    rcases List.mem_cons.mp hp with h | h
    · subst h
      exact closeAll_hasKey_mono ps _ d (ensureDeps_hasKey_self p.2 acc d hd)
    · exact closeAll_deps_hasKey ps _ p h d hd

theorem closed_graph_core (P : DepGraph) (n d : String)
    (hd : d ∈ graphGet (closeAll P P) n) :
    hasKey (closeAll P P) d = true ∧
    (hasKey P d = false → graphGet (closeAll P P) d = []) := by
  have hne : graphGet (closeAll P P) n ≠ [] := by
    intro h0
    rw [h0] at hd
    exact absurd hd (List.not_mem_nil d)
  obtain ⟨x, hxmem, _, hx2⟩ := graphGet_entry hne
  have hxP : x ∈ P := by
    rcases closeAll_mem P P x hxmem with h | h
    · exact h
    · rw [h] at hx2
      rw [hx2] at hd
      exact absurd hd (List.not_mem_nil d)
  have hdx : d ∈ x.2 := by
    rw [← hx2]
    exact hd
  have hKey := closeAll_deps_hasKey P P x hxP d hdx
  refine ⟨hKey, ?_⟩
  intro hPd
  obtain ⟨y, hymem, hy1, hy2⟩ := hasKey_entry hKey
  rcases closeAll_mem P P y hymem with h | h
  · have hk := mem_hasKey h
    rw [hy1, hPd] at hk
    exact Bool.noConfusion hk
  · rw [hy2, h]

/-- Claim C7: in the graph built from the manifests, every dependency name
appearing in any node's dependency list is itself a key, and a dependency
with no parsed package entry of its own is mapped to the empty dependency
list, so no lookup of a referenced node can fail. -/
theorem claim7_manifest_graph_closed (ms : List (List String)) (n d : String)
    (hd : d ∈ graphGet (build_graph_from_repo ms) n) :
    hasKey (build_graph_from_repo ms) d = true ∧
    (hasKey (packagesOf [] ms) d = false →
      graphGet (build_graph_from_repo ms) d = []) :=
  closed_graph_core (packagesOf [] ms) n d hd

theorem claim7_witness :
    hasKey (build_graph_from_repo
      [["[package]", "name = \"a\"", "[dependencies]", "b = \"1\""]]) "b"
      = true ∧
    graphGet (build_graph_from_repo
      [["[package]", "name = \"a\"", "[dependencies]", "b = \"1\""]]) "b"
      = [] :=
  ⟨(claim7_manifest_graph_closed
      [["[package]", "name = \"a\"", "[dependencies]", "b = \"1\""]] "a" "b"
      (by decide)).1,
   (claim7_manifest_graph_closed
      [["[package]", "name = \"a\"", "[dependencies]", "b = \"1\""]] "a" "b"
      (by decide)).2 (by decide)⟩

/-! ### Reachability invariant of the filtered traversal (C5) -/

theorem CleanPath.snoc : ∀ {g : DepGraph} {fil a b : String} {k : Nat},
    CleanPath g fil a b k → ∀ {c : String}, pyIn fil c = false →
    c ∈ graphGet g b → CleanPath g fil a c (k + 1)
  | _, _, _, _, _, CleanPath.nil a ha, c, hc, hbc =>
    CleanPath.cons a c c 0 ha hbc (CleanPath.nil c hc)
  | _, _, _, _, _, CleanPath.cons a b d k ha hb hp, c, hc, hbc =>
    CleanPath.cons a b c (k + 1) ha hb (CleanPath.snoc hp hc hbc)

theorem filteredOut_of_ne {fil x : String} (h : fil ≠ "") :
    filteredOut fil x = pyIn fil x := by
  unfold filteredOut
  rw [beq_eq_false_iff_ne.mpr h]
  rfl

theorem stepNbrs_vis_mem : ∀ (fil : String) (nbrs vis nf : List String)
    (x : String), x ∈ (stepNbrs fil nbrs vis nf).1 →
    x ∈ vis ∨ (x ∈ nbrs ∧ filteredOut fil x = false)
  | _, [], _, _, _, hx => Or.inl hx
  | fil, nbr :: rest, vis, nf, x, hx => by
    unfold stepNbrs at hx
    by_cases hflt : filteredOut fil nbr = true
    · rw [if_pos hflt] at hx
      rcases stepNbrs_vis_mem fil rest vis nf x hx with h | ⟨h1, h2⟩
      · exact Or.inl h
      · exact Or.inr ⟨List.mem_cons_of_mem _ h1, h2⟩
    · rw [if_neg hflt] at hx
      by_cases hvc : vis.contains nbr = true
      · rw [if_pos hvc] at hx
        rcases stepNbrs_vis_mem fil rest vis nf x hx with h | ⟨h1, h2⟩
        · exact Or.inl h
        · exact Or.inr ⟨List.mem_cons_of_mem _ h1, h2⟩
      · rw [if_neg hvc] at hx
        rcases stepNbrs_vis_mem fil rest (vis ++ [nbr]) (nf ++ [nbr]) x hx with
          h | ⟨h1, h2⟩
        · rcases List.mem_append.mp h with h | h
          · exact Or.inl h
          · rw [List.mem_singleton] at h
            subst h
            exact Or.inr ⟨List.mem_cons_self _ _, by simpa using hflt⟩
        · exact Or.inr ⟨List.mem_cons_of_mem _ h1, h2⟩

theorem stepNbrs_nf_mem : ∀ (fil : String) (nbrs vis nf : List String)
    (x : String), x ∈ (stepNbrs fil nbrs vis nf).2 →
    x ∈ nf ∨ (x ∈ nbrs ∧ filteredOut fil x = false)
  | _, [], _, _, _, hx => Or.inl hx
  | fil, nbr :: rest, vis, nf, x, hx => by
    unfold stepNbrs at hx
    by_cases hflt : filteredOut fil nbr = true
    · rw [if_pos hflt] at hx
      rcases stepNbrs_nf_mem fil rest vis nf x hx with h | ⟨h1, h2⟩
      · exact Or.inl h
      · exact Or.inr ⟨List.mem_cons_of_mem _ h1, h2⟩
    · rw [if_neg hflt] at hx
      by_cases hvc : vis.contains nbr = true
      · rw [if_pos hvc] at hx
        rcases stepNbrs_nf_mem fil rest vis nf x hx with h | ⟨h1, h2⟩
        · exact Or.inl h
        · exact Or.inr ⟨List.mem_cons_of_mem _ h1, h2⟩
      · rw [if_neg hvc] at hx
        rcases stepNbrs_nf_mem fil rest (vis ++ [nbr]) (nf ++ [nbr]) x hx with
          h | ⟨h1, h2⟩
        · rcases List.mem_append.mp h with h | h
          · exact Or.inl h
          · rw [List.mem_singleton] at h
            subst h
            exact Or.inr ⟨List.mem_cons_self _ _, by simpa using hflt⟩
        · exact Or.inr ⟨List.mem_cons_of_mem _ h1, h2⟩

theorem stepFrontier_vis_mem : ∀ (g : DepGraph) (fil : String)
    (frontier vis nf : List String) (x : String),
    x ∈ (stepFrontier g fil frontier vis nf).1 →
    x ∈ vis ∨ ∃ p ∈ frontier, x ∈ graphGet g p ∧ filteredOut fil x = false
  | _, _, [], _, _, _, hx => Or.inl hx
  | g, fil, node :: rest, vis, nf, x, hx => by
    unfold stepFrontier at hx
    dsimp only at hx
    rcases stepFrontier_vis_mem g fil rest _ _ x hx with h | ⟨p, hp, h1, h2⟩
    · rcases stepNbrs_vis_mem fil (graphGet g node) vis nf x h with h | ⟨h1, h2⟩
      · exact Or.inl h
      · exact Or.inr ⟨node, List.mem_cons_self _ _, h1, h2⟩
    · exact Or.inr ⟨p, List.mem_cons_of_mem _ hp, h1, h2⟩

theorem stepFrontier_nf_mem : ∀ (g : DepGraph) (fil : String)
    (frontier vis nf : List String) (x : String),
    x ∈ (stepFrontier g fil frontier vis nf).2 →
    x ∈ nf ∨ ∃ p ∈ frontier, x ∈ graphGet g p ∧ filteredOut fil x = false
  | _, _, [], _, _, _, hx => Or.inl hx
  | g, fil, node :: rest, vis, nf, x, hx => by
    unfold stepFrontier at hx
    dsimp only at hx
    rcases stepFrontier_nf_mem g fil rest _ _ x hx with h | ⟨p, hp, h1, h2⟩
    · rcases stepNbrs_nf_mem fil (graphGet g node) vis nf x h with h | ⟨h1, h2⟩
      · exact Or.inl h
      · exact Or.inr ⟨node, List.mem_cons_self _ _, h1, h2⟩
    · exact Or.inr ⟨p, List.mem_cons_of_mem _ hp, h1, h2⟩

theorem bfsLoop_vis_reach (g : DepGraph) (s : String) {fil : String}
    (hfil : fil ≠ "") : ∀ (fuel : Nat) (frontier vis : List String) (D : Nat),
    (∀ f ∈ frontier, ∃ k, k ≤ D ∧ CleanPath g fil s f k) →
    (∀ v ∈ vis, ∃ k, k ≤ D ∧ CleanPath g fil s v k) →
    ∀ x ∈ (bfsLoop g fil fuel frontier vis).1,
      ∃ k, k ≤ D + fuel ∧ CleanPath g fil s x k
  | 0, _, _, D, _, hvis, x, hx => by
    obtain ⟨k, hk, hp⟩ := hvis x hx
    exact ⟨k, by omega, hp⟩
  | fuel + 1, frontier, vis, D, hfr, hvis, x, hx => by
    unfold bfsLoop at hx
    dsimp only at hx
    have hvis1 : ∀ v ∈ (stepFrontier g fil frontier vis []).1,
        ∃ k, k ≤ D + 1 ∧ CleanPath g fil s v k := by
      intro v hv
      rcases stepFrontier_vis_mem g fil frontier vis [] v hv with
        h | ⟨p, hp, h1, h2⟩
      · obtain ⟨k, hk, hpath⟩ := hvis v h
        exact ⟨k, by omega, hpath⟩
      · obtain ⟨k, hk, hpath⟩ := hfr p hp
        refine ⟨k + 1, by omega, ?_⟩
        refine CleanPath.snoc hpath ?_ h1
        rw [← filteredOut_of_ne hfil]
        exact h2
    have hfr1 : ∀ f ∈ (stepFrontier g fil frontier vis []).2,
        ∃ k, k ≤ D + 1 ∧ CleanPath g fil s f k := by
      intro f hf
      rcases stepFrontier_nf_mem g fil frontier vis [] f hf with
        h | ⟨p, hp, h1, h2⟩
      · exact absurd h (List.not_mem_nil f)
      · obtain ⟨k, hk, hpath⟩ := hfr p hp
        refine ⟨k + 1, by omega, ?_⟩
        refine CleanPath.snoc hpath ?_ h1
        rw [← filteredOut_of_ne hfil]
        exact h2
    by_cases hempty : (stepFrontier g fil frontier vis []).2.isEmpty = true
    · rw [if_pos hempty] at hx
      obtain ⟨k, hk, hpath⟩ := hvis1 x hx
      exact ⟨k, by omega, hpath⟩
    · rw [if_neg hempty] at hx
      dsimp only at hx
      obtain ⟨k, hk, hpath⟩ :=
        bfsLoop_vis_reach g s hfil fuel _ _ (D + 1) hfr1 hvis1 x hx
      exact ⟨k, by omega, hpath⟩

/-- Claim C5: with a non-empty filter, every visited node other than the start
is reachable from the start by a dependency path of length at most `max_depth`
on which no node's name contains the filter substring; hence a node reachable
only through filtered-out intermediates is never visited. -/
theorem claim5_filtered_reachability (g : DepGraph) (start fil : String)
    (maxDepth : Nat) (hfil : fil ≠ "") (v : String)
    (hv : v ∈ (bfs_recursive_levels start g maxDepth fil).1) (hne : v ≠ start) :
    ∃ k, k ≤ maxDepth ∧ CleanPath g fil start v k := by
  unfold bfs_recursive_levels at hv
  by_cases hfo : filteredOut fil start = true
  · rw [if_pos hfo] at hv
    exact absurd hv (List.not_mem_nil v)
  · rw [if_neg hfo] at hv
    dsimp only at hv
    have hstart : pyIn fil start = false := by
      rw [← filteredOut_of_ne hfil]
      simpa using hfo
    have hbase : ∀ f ∈ ([start] : List String),
        ∃ k, k ≤ 0 ∧ CleanPath g fil start f k := by
      intro f hf
      rw [List.mem_singleton] at hf
      subst hf
      exact ⟨0, Nat.le_refl 0, CleanPath.nil f hstart⟩
    obtain ⟨k, hk, hp⟩ :=
      bfsLoop_vis_reach g start hfil maxDepth [start] [start] 0 hbase hbase v hv
    exact ⟨k, by omega, hp⟩

theorem claim5_witness :
    ∃ k, k ≤ 1 ∧ CleanPath [("A", ["B"])] "X" "A" "B" k :=
  claim5_filtered_reachability [("A", ["B"])] "A" "X" 1 (by decide) "B"
    (by decide) (by decide)

theorem claim10_witness :
    graphGet [("A", ["B"])] "Z" = [] ∧
    stepFrontier [("A", ["B"])] "" ["Z"] ["A"] [] = (["A"], []) ∧
    edgesFor [("A", ["B"])] ["A", "B"] ["Z"] = [] :=
  ⟨claim10_total_graph_lookup.1 [("A", ["B"])] "Z" (by decide),
   claim10_total_graph_lookup.2.1 [("A", ["B"])] "" "Z" ["A"] [] (by decide),
   claim10_total_graph_lookup.2.2.1 [("A", ["B"])] ["A", "B"] "Z" (by decide)⟩

end Config2
